import Mathlib

/-
Verification development for the vmapi-resolver library (src/lib/resolver.js).

The resolver periodically polls VMAPI for VMs matching configured tags and
maintains a keyed set of advertised backends (`vmr_backends`, a plain JS
object mapping key -> backend).  This file gives a shallow embedding of the
parts of resolver.js that the verified properties are about:

  * the reconciliation routine `diffAndEmit` (resolver.js lines 105-162),
    embedded as a pure function over an association-list model of the JS
    object `vmr_backends` (JS objects with non-numeric string keys preserve
    insertion order; assigning to an existing key replaces the value in
    place, assigning a fresh key appends);
  * the mooremachine lifecycle (state_stopped / state_starting /
    state_running / state_failed / state_stopping, lines 165-262) together
    with the poll-loop guard `vmr_lastPoll` and the asynchronous
    `getBackends` completions, embedded as a step function over an explicit
    resolver-state record driven by a list of inputs;
  * the accessors `count`, `getLastError` and `list` (lines 275-285).

Modelling conventions, each noted again at its definition:
  * backend keys are 12-character base64 strings of 9 random bytes in the
    source (`mod_crypto.randomBytes(9).toString('base64')`, line 129); the
    spec treats them as an injective fresh-key supply (collision probability
    negligible), and the embedding models the supply as a counter `nextKey`
    handing out natural numbers never used before;
  * fetch completions (`getBackends` callbacks) are delivered as explicit
    `Input.fetchDone` inputs; the origin of the outstanding fetch records
    which callback closure runs, since the closure created in one FSM state
    keeps running even after the machine has left that state.
-/

namespace VmapiResolver

/-- Endpoint as reported by one VMAPI discovery cycle: the alias and the
matched NIC ip of a VM (resolver.js lines 93-96). -/
structure Endpoint where
  name : String
  address : String
deriving DecidableEq, Repr

/-- Keyed backend as stored in `vmr_backends` and emitted with `added`
(resolver.js lines 115-132): name, address, the statically configured
port, and the assigned key. -/
structure Backend where
  name : String
  address : String
  port : Nat
  key : Nat
deriving DecidableEq, Repr

/-- Model of the JS object `vmr_backends`: an association list in insertion
order, keys unique by construction of `objSet`.  Keys are modelled as Nat
(see the fresh-key-supply convention in the header comment). -/
abbrev BSet := List (Nat × Backend)

/-- Object.keys, in insertion order. -/
def keysOf (l : BSet) : List Nat := l.map Prod.fst

/-- Property-presence test: `new_backends[k] === undefined` is false exactly
when k is a key of the object. -/
def objMem (l : BSet) (k : Nat) : Bool := l.any (fun kb => kb.1 == k)

/-- Property read `obj[k]`: the backend stored at key k, if any. -/
def objGet (l : BSet) (k : Nat) : Option Backend :=
  (l.find? (fun kb => kb.1 == k)).map Prod.snd

/-- Property write `obj[k] = v`: replace in place when the key exists
(JS objects keep the original insertion position), append otherwise. -/
def objSet (l : BSet) (k : Nat) (v : Backend) : BSet :=
  if objMem l k then l.map (fun kb => if kb.1 == k then (k, v) else kb)
  else l ++ [(k, v)]

/-- The match test of the inner loop of diffAndEmit (resolver.js lines
122-123): `old_backend.address === be.address && old_backend.name ===
be.name`. -/
def sameNA (b : Backend) (e : Endpoint) : Bool :=
  b.address == e.address && b.name == e.name

/-- The backend record built for a discovered endpoint (resolver.js lines
115-119 plus the key assignment of lines 125 and 129). -/
def mkB (e : Endpoint) (p k : Nat) : Backend :=
  { name := e.name, address := e.address, port := p, key := k }

/-- The (name, address) pair of a stored backend, for matching by value. -/
def pairB (b : Backend) : Endpoint := { name := b.name, address := b.address }

/-- The inner loop of diffAndEmit over `Object.keys(self.vmr_backends)`
(resolver.js lines 120-127): every matching entry overwrites `be.key`, so
the key of the LAST entry whose (name, address) equals the endpoint's wins. -/
def lastMatch (old : BSet) (e : Endpoint) : Option Nat :=
  old.foldl (fun acc kb => if sameNA kb.2 e then some kb.1 else acc) none

/-- Accumulator of the outer forEach of diffAndEmit: the object
`new_backends` under construction, the `added` key list, and the state of
the fresh-key supply. -/
structure DiffAcc where
  newBackends : BSet
  added : List Nat
  nextKey : Nat
deriving DecidableEq, Repr

/-- One iteration of the outer forEach of diffAndEmit (resolver.js lines
114-134): search the old set for a (name, address) match; reuse its key if
found, otherwise mint a fresh key and record it as added; then store the
backend under that key in `new_backends`. -/
def diffStep (old : BSet) (p : Nat) (acc : DiffAcc) (e : Endpoint) : DiffAcc :=
  match lastMatch old e with
  | some k =>
      { acc with newBackends := objSet acc.newBackends k (mkB e p k) }
  | none =>
      { newBackends := objSet acc.newBackends acc.nextKey (mkB e p acc.nextKey)
        added := acc.added ++ [acc.nextKey]
        nextKey := acc.nextKey + 1 }

/-- The outer forEach of diffAndEmit, as explicit recursion over the
discovered endpoint list. -/
def diffLoop (old : BSet) (p : Nat) (acc : DiffAcc) : List Endpoint → DiffAcc
  | [] => acc
  | e :: rest => diffLoop old p (diffStep old p acc e) rest

/-- Result of one reconciliation: the new backend object, the added and
removed key lists, and the advanced fresh-key supply. -/
structure DiffResult where
  newBackends : BSet
  added : List Nat
  removed : List Nat
  nextKey : Nat
deriving DecidableEq, Repr

/-- The reconciliation of diffAndEmit (resolver.js lines 105-140): build
`new_backends` from the discovered list against the old set, then collect
as removed every old key absent from `new_backends` (lines 136-140). -/
def diffAndEmit (old : BSet) (discovered : List Endpoint) (p n : Nat) :
    DiffResult :=
  let acc := diffLoop old p { newBackends := [], added := [], nextKey := n }
    discovered
  { newBackends := acc.newBackends
    added := acc.added
    removed := (keysOf old).filter (fun k => !objMem acc.newBackends k)
    nextKey := acc.nextKey }

/-- Events observable by subscribers: `added(key, new_backends[key])`
(resolver.js line 142; the payload is the object lookup, hence Option) and
`removed(key)` (line 145 and line 253). -/
inductive Ev where
  | added (k : Nat) (b : Option Backend)
  | removed (k : Nat)
deriving DecidableEq, Repr

/-- Event emission of diffAndEmit (resolver.js lines 141-146): all added
events first, in order, then all removed events. -/
def diffEvents (r : DiffResult) : List Ev :=
  r.added.map (fun k => Ev.added k (objGet r.newBackends k)) ++
    r.removed.map Ev.removed

/-- The mooremachine states of the resolver (resolver.js lines 165-262). -/
inductive FsmState where
  | stopped
  | starting
  | running
  | failed
  | stopping
deriving DecidableEq, Repr

/-- Which state issued the outstanding getBackends call; the completion
runs that state's callback closure, whatever the current state is. -/
inductive Origin where
  | fromStarting
  | fromRunning
  | fromFailed
deriving DecidableEq, Repr

/-- The mutable fields of a VmapiResolver instance (resolver.js lines
39-47 and the field reads of lines 275-285), plus the FSM state and the
identity of the outstanding fetch.  `lastError` models `vmr_last_error`,
which `getLastError` reads (line 280) and which no statement of
resolver.js ever assigns; `lastRemoved` holds keys when set by diffAndEmit
(line 156) but backend records when set by state_stopping (line 257). -/
structure Resolver where
  fsm : FsmState
  backends : BSet
  discovered : List Endpoint
  lastPoll : Bool
  inFlight : Option Origin
  lastError : Option Nat
  nextKey : Nat
  port : Nat
  lastBackends : BSet
  lastAdded : List Nat
  lastRemoved : List (Nat ⊕ Backend)
deriving DecidableEq, Repr

/-- The resolver as constructed (resolver.js lines 39-47 and 62): stopped,
empty backend object, no poll outstanding, `vmr_last_error` unset. -/
def initResolver (p : Nat) : Resolver :=
  { fsm := FsmState.stopped
    backends := []
    discovered := []
    lastPoll := false
    inFlight := none
    lastError := none
    nextKey := 0
    port := p
    lastBackends := []
    lastAdded := []
    lastRemoved := [] }

/-- The call `this.diffAndEmit()` (resolver.js lines 105-162): reconcile
`vmr_discovered_backends` against `vmr_backends`, emit the events, update
the debugging fields, and swap in the new object (lines 148-156). -/
def applyDiff (r : Resolver) : Resolver × List Ev :=
  let d := diffAndEmit r.backends r.discovered r.port r.nextKey
  ({ r with
      backends := d.newBackends
      nextKey := d.nextKey
      lastBackends :=
        if d.added.length > 0 || d.removed.length > 0 then r.backends
        else r.lastBackends
      lastAdded := d.added
      lastRemoved := d.removed.map Sum.inl },
    diffEvents d)

/-- Entry into state_running (resolver.js lines 188-191): reconcile and
emit immediately; the recurring timer it installs is represented by the
fact that `Input.tick` is accepted in the running state. -/
def enterRunning (r : Resolver) : Resolver × List Ev :=
  applyDiff { r with fsm := FsmState.running }

/-- Entry into state_stopping followed by the immediate transition to
stopped (resolver.js lines 245-262): emit `removed(to_remove.key)` for
every member of `vmr_backends` in key order, record the removed backend
records in `vmr_lastRemoved`, clear the object.  Note that neither
`vmr_lastPoll` nor the outstanding fetch is touched. -/
def stopSeq (r : Resolver) : Resolver × List Ev :=
  ({ r with
      fsm := FsmState.stopped
      backends := []
      lastRemoved := r.backends.map (fun kb => Sum.inr kb.2) },
    r.backends.map (fun kb => Ev.removed kb.2.key))

/-- Inputs driving the resolver: the public start() and stop() calls
(resolver.js lines 264-273), a firing of the recurring poll timer, and the
completion of the outstanding getBackends call with either the endpoint
list or an error (error values modelled as numeric codes). -/
inductive Input where
  | start
  | stop
  | tick
  | fetchDone (res : Except Nat (List Endpoint))

/-- One event-loop turn of the resolver.  `none` means the input is
rejected in the current configuration: a start()/stop() assertion failure
(resolver.js lines 265 and 270-271), a timer tick with no timer installed,
a fetch completion with no fetch outstanding, or a completion whose
callback calls `S.gotoState` on the handle of a state the machine has
already left (which mooremachine rejects).  The fromRunning completion
callback (lines 198-207) references no state handle and therefore runs in
full whatever the current state is: on success it stores the discovered
list and calls diffAndEmit with no check that the machine is still
running. -/
def step (r : Resolver) (i : Input) : Option (Resolver × List Ev) :=
  match i with
  | Input.start =>
      match r.fsm with
      | FsmState.stopped =>
          some ({ r with fsm := FsmState.starting
                         inFlight := some Origin.fromStarting }, [])
      | _ => none
  | Input.stop =>
      match r.fsm with
      | FsmState.running => some (stopSeq r)
      | FsmState.failed => some (stopSeq r)
      | _ => none
  | Input.tick =>
      match r.fsm with
      | FsmState.running =>
          if r.lastPoll then some (r, [])
          else some ({ r with lastPoll := true
                              inFlight := some Origin.fromRunning }, [])
      | FsmState.failed =>
          if r.lastPoll then some (r, [])
          else some ({ r with lastPoll := true
                              inFlight := some Origin.fromFailed }, [])
      | _ => none
  | Input.fetchDone res =>
      match r.inFlight with
      | none => none
      | some Origin.fromStarting =>
          match r.fsm with
          | FsmState.starting =>
              match res with
              | Except.error _ =>
                  some ({ r with fsm := FsmState.failed, inFlight := none },
                    [])
              | Except.ok eps =>
                  some (enterRunning
                    { r with discovered := eps, inFlight := none })
          | _ => none
      | some Origin.fromRunning =>
          match res with
          | Except.error _ =>
              some ({ r with lastPoll := false, inFlight := none }, [])
          | Except.ok eps =>
              some (applyDiff
                { r with lastPoll := false, inFlight := none,
                         discovered := eps })
      | some Origin.fromFailed =>
          match res with
          | Except.error _ =>
              some ({ r with lastPoll := false, inFlight := none }, [])
          | Except.ok eps =>
              match r.fsm with
              | FsmState.failed =>
                  some (enterRunning
                    { r with lastPoll := false, inFlight := none,
                             discovered := eps })
              | _ => none

/-- Run a list of inputs from a configuration, collecting all emitted
events in order. -/
def run (r : Resolver) : List Input → Option (Resolver × List Ev)
  | [] => some (r, [])
  | i :: rest =>
      match step r i with
      | none => none
      | some (r', evs) =>
          match run r' rest with
          | none => none
          | some (r'', evs') => some (r'', evs ++ evs')

/-- Reading `.length` on `vmr_backends` (resolver.js line 276):
`vmr_backends` is a plain object, never an array, and its keys are the
12-character base64 encodings of 9 random bytes, so the string "length"
is never among them; the property access therefore always evaluates to
undefined, modelled as none. -/
def jsObjectLength (_ : BSet) : Option Nat := none

/-- count() (resolver.js lines 275-277): `return (this.vmr_backends.length)`. -/
def count (r : Resolver) : Option Nat := jsObjectLength r.backends

/-- getLastError() (resolver.js lines 279-281): `return (this.vmr_last_error)`. -/
def getLastError (r : Resolver) : Option Nat := r.lastError

/-- list() (resolver.js lines 283-285): `return (this.vmr_backends)`. -/
def list (r : Resolver) : BSet := r.backends

/-! Basic lemmas about the JS-object model. -/

theorem objMem_iff (l : BSet) (k : Nat) : objMem l k = true ↔ k ∈ keysOf l := by
  simp only [objMem, keysOf, List.any_eq_true, List.mem_map, beq_iff_eq]

theorem objSet_of_not_mem (l : BSet) (k : Nat) (v : Backend)
    (h : objMem l k = false) : objSet l k v = l ++ [(k, v)] := by
  simp [objSet, h]

theorem keysOf_append (l1 l2 : BSet) :
    keysOf (l1 ++ l2) = keysOf l1 ++ keysOf l2 := by
  simp [keysOf]

theorem keysOf_objSet_of_mem (l : BSet) (k : Nat) (v : Backend)
    (h : objMem l k = true) : keysOf (objSet l k v) = keysOf l := by
  simp only [objSet, h, if_true, keysOf, List.map_map]
  apply List.map_congr_left
  intro kb _
  by_cases hk : kb.1 = k
  · simp [hk]
  · simp [hk]

theorem keysOf_objSet_nodup (l : BSet) (k : Nat) (v : Backend)
    (h : (keysOf l).Nodup) : (keysOf (objSet l k v)).Nodup := by
  cases hm : objMem l k with
  | true => rw [keysOf_objSet_of_mem l k v hm]; exact h
  | false =>
      rw [objSet_of_not_mem l k v hm, keysOf_append]
      rw [List.nodup_append]
      refine ⟨h, List.nodup_singleton k, ?_⟩
      intro a ha hb
      simp [keysOf] at hb
      subst hb
      rw [← objMem_iff] at ha
      rw [hm] at ha
      exact absurd ha (by simp)

theorem mem_objSet (l : BSet) (k : Nat) (v : Backend) (x : Nat × Backend)
    (h : x ∈ objSet l k v) : x = (k, v) ∨ x ∈ l := by
  by_cases hm : objMem l k = true
  · simp only [objSet, hm, if_true] at h
    rcases List.mem_map.mp h with ⟨kb, hmem, hx⟩
    by_cases hk : kb.1 = k
    · simp [hk] at hx; left; exact hx.symm
    · simp [hk] at hx; right; rw [← hx]; exact hmem
  · rw [objSet_of_not_mem l k v (by simpa using hm)] at h
    rcases List.mem_append.mp h with h1 | h1
    · right; exact h1
    · left; simpa using h1

theorem keysOf_objSet_sub (l : BSet) (k : Nat) (v : Backend) (k' : Nat)
    (h : k' ∈ keysOf (objSet l k v)) : k' = k ∨ k' ∈ keysOf l := by
  simp only [keysOf, List.mem_map] at h
  rcases h with ⟨kb, hmem, hk⟩
  rcases mem_objSet l k v kb hmem with h1 | h1
  · left; rw [← hk, h1]
  · right; rw [← hk]; exact List.mem_map.mpr ⟨kb, h1, rfl⟩

theorem mem_unique_of_nodup_keys (l : BSet) (k : Nat) (b1 b2 : Backend)
    (hnd : (keysOf l).Nodup) (h1 : (k, b1) ∈ l) (h2 : (k, b2) ∈ l) :
    b1 = b2 := by
  induction l with
  | nil => cases h1
  | cons kb rest ih =>
      rw [keysOf] at hnd
      simp only [List.map_cons, List.nodup_cons] at hnd
      rcases List.mem_cons.mp h1 with e1 | m1
      · rcases List.mem_cons.mp h2 with e2 | m2
        · rw [← e1] at e2; exact (Prod.mk.injEq _ _ _ _ ▸ e2).2.symm
        · exfalso
          apply hnd.1
          rw [← e1]
          exact List.mem_map.mpr ⟨(k, b2), m2, rfl⟩
      · rcases List.mem_cons.mp h2 with e2 | m2
        · exfalso
          apply hnd.1
          rw [← e2]
          exact List.mem_map.mpr ⟨(k, b1), m1, rfl⟩
        · exact ih hnd.2 m1 m2

/-! Lemmas about lastMatch, the inner search loop of diffAndEmit. -/

theorem lastMatch_fold (l : BSet) (e : Endpoint) (a : Option Nat) :
    l.foldl (fun acc kb => if sameNA kb.2 e then some kb.1 else acc) a =
      match lastMatch l e with
      | some k => some k
      | none => a := by
  induction l generalizing a with
  | nil => simp [lastMatch]
  | cons kb rest ih =>
      show List.foldl _ (if sameNA kb.2 e then some kb.1 else a) rest = _
      rw [ih]
      show _ = match List.foldl _ (if sameNA kb.2 e then some kb.1 else none)
        rest with | some k => some k | none => a
      rw [ih (if sameNA kb.2 e then some kb.1 else none)]
      cases lastMatch rest e with
      | some k => rfl
      | none => cases sameNA kb.2 e <;> rfl

theorem lastMatch_cons (kb : Nat × Backend) (l : BSet) (e : Endpoint) :
    lastMatch (kb :: l) e =
      match lastMatch l e with
      | some k => some k
      | none => if sameNA kb.2 e then some kb.1 else none := by
  show List.foldl _ (if sameNA kb.2 e then some kb.1 else none) l = _
  exact lastMatch_fold l e _

theorem lastMatch_append (l1 l2 : BSet) (e : Endpoint) :
    lastMatch (l1 ++ l2) e =
      match lastMatch l2 e with
      | some k => some k
      | none => lastMatch l1 e := by
  show List.foldl _ _ (l1 ++ l2) = _
  rw [List.foldl_append]
  exact lastMatch_fold l2 e _

theorem lastMatch_eq_none (l : BSet) (e : Endpoint)
    (h : ∀ kb ∈ l, sameNA kb.2 e = false) : lastMatch l e = none := by
  induction l with
  | nil => rfl
  | cons kb rest ih =>
      rw [lastMatch_cons]
      rw [ih (fun x hx => h x (List.mem_cons_of_mem kb hx))]
      simp [h kb (List.mem_cons_self kb rest)]

theorem lastMatch_spec (l : BSet) (e : Endpoint) (k : Nat)
    (h : lastMatch l e = some k) :
    ∃ b, (k, b) ∈ l ∧ sameNA b e = true := by
  induction l with
  | nil => cases h
  | cons kb rest ih =>
      rw [lastMatch_cons] at h
      cases hr : lastMatch rest e with
      | some k' =>
          rw [hr] at h
          cases h
          rcases ih hr with ⟨b, hb, hs⟩
          exact ⟨b, List.mem_cons_of_mem kb hb, hs⟩
      | none =>
          rw [hr] at h
          by_cases hs : sameNA kb.2 e = true
          · rw [if_pos hs] at h
            cases h
            exact ⟨kb.2, List.mem_cons_self kb rest, hs⟩
          · rw [if_neg hs] at h
            cases h

theorem lastMatch_key_mem (l : BSet) (e : Endpoint) (k : Nat)
    (h : lastMatch l e = some k) : k ∈ keysOf l := by
  rcases lastMatch_spec l e k h with ⟨b, hb, _⟩
  exact List.mem_map.mpr ⟨(k, b), hb, rfl⟩

theorem sameNA_iff (b : Backend) (e : Endpoint) :
    sameNA b e = true ↔ pairB b = e := by
  cases b with
  | mk nm ad p k =>
      cases e with
      | mk nm' ad' =>
          simp [sameNA, pairB, Endpoint.mk.injEq, and_comm]

theorem pairB_mkB (e : Endpoint) (p k : Nat) : pairB (mkB e p k) = e := by
  cases e; rfl

theorem sameNA_mkB (e q : Endpoint) (p k : Nat) :
    sameNA (mkB e p k) q = true ↔ e = q := by
  rw [sameNA_iff, pairB_mkB]

theorem lastMatch_inj (l : BSet) (e1 e2 : Endpoint) (k : Nat)
    (hnd : (keysOf l).Nodup)
    (h1 : lastMatch l e1 = some k) (h2 : lastMatch l e2 = some k) :
    e1 = e2 := by
  rcases lastMatch_spec l e1 k h1 with ⟨b1, hb1, hs1⟩
  rcases lastMatch_spec l e2 k h2 with ⟨b2, hb2, hs2⟩
  have hb : b1 = b2 := mem_unique_of_nodup_keys l k b1 b2 hnd hb1 hb2
  rw [← (sameNA_iff b1 e1).mp hs1, ← (sameNA_iff b2 e2).mp hs2, hb]

/-! Invariants of the outer forEach of diffAndEmit. -/

theorem diffLoop_nextKey_mono (old : BSet) (p : Nat) (d : List Endpoint) :
    ∀ acc : DiffAcc, acc.nextKey ≤ (diffLoop old p acc d).nextKey := by
  induction d with
  | nil => intro acc; exact Nat.le_refl _
  | cons e rest ih =>
      intro acc
      refine Nat.le_trans ?_ (ih (diffStep old p acc e))
      unfold diffStep
      cases lastMatch old e with
      | some k => exact Nat.le_refl _
      | none => exact Nat.le_succ _

theorem diffLoop_keys_nodup (old : BSet) (p : Nat) (d : List Endpoint) :
    ∀ acc : DiffAcc, (keysOf acc.newBackends).Nodup →
      (keysOf (diffLoop old p acc d).newBackends).Nodup := by
  induction d with
  | nil => intro acc h; exact h
  | cons e rest ih =>
      intro acc h
      apply ih
      unfold diffStep
      cases lastMatch old e with
      | some k => exact keysOf_objSet_nodup _ _ _ h
      | none => exact keysOf_objSet_nodup _ _ _ h

theorem diffLoop_entry_shape (old : BSet) (p : Nat) (d : List Endpoint) :
    ∀ acc : DiffAcc,
      (∀ kb ∈ acc.newBackends, kb.2.key = kb.1 ∧ kb.2.port = p) →
      ∀ kb ∈ (diffLoop old p acc d).newBackends,
        kb.2.key = kb.1 ∧ kb.2.port = p := by
  induction d with
  | nil => intro acc h; exact h
  | cons e rest ih =>
      intro acc h
      apply ih
      intro kb hkb
      unfold diffStep at hkb
      cases hm : lastMatch old e with
      | some k =>
          rw [hm] at hkb
          rcases mem_objSet _ _ _ _ hkb with h1 | h1
          · subst h1; exact ⟨rfl, rfl⟩
          · exact h kb h1
      | none =>
          rw [hm] at hkb
          rcases mem_objSet _ _ _ _ hkb with h1 | h1
          · subst h1; exact ⟨rfl, rfl⟩
          · exact h kb h1

theorem diffLoop_origin (old : BSet) (p n0 : Nat) (d : List Endpoint) :
    ∀ acc : DiffAcc, n0 ≤ acc.nextKey →
      (∀ kb ∈ acc.newBackends,
        lastMatch old (pairB kb.2) = some kb.1 ∨
          (lastMatch old (pairB kb.2) = none ∧ n0 ≤ kb.1)) →
      ∀ kb ∈ (diffLoop old p acc d).newBackends,
        lastMatch old (pairB kb.2) = some kb.1 ∨
          (lastMatch old (pairB kb.2) = none ∧ n0 ≤ kb.1) := by
  induction d with
  | nil => intro acc _ h; exact h
  | cons e rest ih =>
      intro acc hn h
      unfold diffLoop
      cases hm : lastMatch old e with
      | some k =>
          have hstep : diffStep old p acc e =
              { acc with newBackends := objSet acc.newBackends k (mkB e p k) } := by
            unfold diffStep; rw [hm]
          rw [hstep]
          refine ih _ ?_ ?_
          · exact hn
          intro kb hkb
          rcases mem_objSet _ _ _ _ hkb with h1 | h1
          · subst h1
            left
            show lastMatch old (pairB (mkB e p k)) = some k
            rw [pairB_mkB]; exact hm
          · exact h kb h1
      | none =>
          have hstep : diffStep old p acc e =
              { newBackends := objSet acc.newBackends acc.nextKey
                  (mkB e p acc.nextKey)
                added := acc.added ++ [acc.nextKey]
                nextKey := acc.nextKey + 1 } := by
            unfold diffStep; rw [hm]
          rw [hstep]
          refine ih _ ?_ ?_
          · exact Nat.le_trans hn (Nat.le_succ _)
          intro kb hkb
          rcases mem_objSet _ _ _ _ hkb with h1 | h1
          · subst h1
            right
            constructor
            · show lastMatch old (pairB (mkB e p acc.nextKey)) = none
              rw [pairB_mkB]; exact hm
            · exact hn
          · rcases h kb h1 with h2 | h2
            · left; exact h2
            · right; exact h2

theorem diffLoop_keys_lt (old : BSet) (p n : Nat) (d : List Endpoint)
    (hold : ∀ k ∈ keysOf old, k < n) :
    ∀ acc : DiffAcc, n ≤ acc.nextKey →
      (∀ k ∈ keysOf acc.newBackends, k < acc.nextKey) →
      ∀ k ∈ keysOf (diffLoop old p acc d).newBackends,
        k < (diffLoop old p acc d).nextKey := by
  induction d with
  | nil => intro acc _ h; exact h
  | cons e rest ih =>
      intro acc hn h
      unfold diffLoop
      cases hm : lastMatch old e with
      | some k =>
          have hstep : diffStep old p acc e =
              { acc with newBackends := objSet acc.newBackends k (mkB e p k) } := by
            unfold diffStep; rw [hm]
          rw [hstep]
          refine ih _ ?_ ?_
          · exact hn
          intro k' hk'
          rcases keysOf_objSet_sub _ _ _ _ hk' with h1 | h1
          · subst h1
            exact Nat.lt_of_lt_of_le (hold _ (lastMatch_key_mem old e _ hm)) hn
          · exact h k' h1
      | none =>
          have hstep : diffStep old p acc e =
              { newBackends := objSet acc.newBackends acc.nextKey
                  (mkB e p acc.nextKey)
                added := acc.added ++ [acc.nextKey]
                nextKey := acc.nextKey + 1 } := by
            unfold diffStep; rw [hm]
          rw [hstep]
          refine ih _ ?_ ?_
          · exact Nat.le_trans hn (Nat.le_succ _)
          intro k' hk'
          rcases keysOf_objSet_sub _ _ _ _ hk' with h1 | h1
          · subst h1; exact Nat.lt_succ_self _
          · exact Nat.lt_trans (h k' h1) (Nat.lt_succ_self _)

theorem diffLoop_added_ge (old : BSet) (p : Nat) (d : List Endpoint) :
    ∀ (acc : DiffAcc) (j : Nat), j ∈ (diffLoop old p acc d).added →
      j ∈ acc.added ∨ acc.nextKey ≤ j := by
  induction d with
  | nil => intro acc j h; left; exact h
  | cons e rest ih =>
      intro acc j h
      unfold diffLoop at h
      rcases ih (diffStep old p acc e) j h with h1 | h1
      · cases hm : lastMatch old e with
        | some k =>
            have hstep : diffStep old p acc e =
                { acc with newBackends := objSet acc.newBackends k (mkB e p k) } := by
              unfold diffStep; rw [hm]
            rw [hstep] at h1
            left; exact h1
        | none =>
            have hstep : diffStep old p acc e =
                { newBackends := objSet acc.newBackends acc.nextKey
                    (mkB e p acc.nextKey)
                  added := acc.added ++ [acc.nextKey]
                  nextKey := acc.nextKey + 1 } := by
              unfold diffStep; rw [hm]
            rw [hstep] at h1
            rcases List.mem_append.mp h1 with h2 | h2
            · left; exact h2
            · right
              simp only [List.mem_singleton] at h2
              subst h2
              exact Nat.le_refl _
      · right
        refine Nat.le_trans ?_ h1
        unfold diffStep
        cases lastMatch old e with
        | some k => exact Nat.le_refl _
        | none => exact Nat.le_succ _

/-! Shape of a reconciliation run over a duplicate-free discovery list. -/

/-- The key the outer forEach assigns to each discovered endpoint, in
order: the reused key when the old set matches, else the next fresh key. -/
def ksFun (old : BSet) (m : Nat) : List Endpoint → List Nat
  | [] => []
  | e :: rest =>
      match lastMatch old e with
      | some k => k :: ksFun old m rest
      | none => m :: ksFun old (m + 1) rest

/-- Number of discovered endpoints with no match in the old set, i.e. the
number of fresh keys one reconciliation mints. -/
def countFresh (old : BSet) (d : List Endpoint) : Nat :=
  d.countP (fun e => (lastMatch old e).isNone)

/-- The entry stored in `new_backends` for endpoint e under key k. -/
def mkEntry (p k : Nat) (e : Endpoint) : Nat × Backend := (k, mkB e p k)

theorem ksFun_cons_some (old : BSet) (m : Nat) (e : Endpoint)
    (rest : List Endpoint) (k : Nat) (hlm : lastMatch old e = some k) :
    ksFun old m (e :: rest) = k :: ksFun old m rest := by
  simp only [ksFun]
  rw [hlm]

theorem ksFun_cons_none (old : BSet) (m : Nat) (e : Endpoint)
    (rest : List Endpoint) (hlm : lastMatch old e = none) :
    ksFun old m (e :: rest) = m :: ksFun old (m + 1) rest := by
  simp only [ksFun]
  rw [hlm]

theorem countFresh_cons (old : BSet) (e : Endpoint) (rest : List Endpoint) :
    countFresh old (e :: rest) =
      countFresh old rest + (if (lastMatch old e).isNone then 1 else 0) := by
  unfold countFresh
  rw [List.countP_cons]

theorem ksFun_length (old : BSet) (d : List Endpoint) :
    ∀ m : Nat, (ksFun old m d).length = d.length := by
  induction d with
  | nil => intro m; rfl
  | cons e rest ih =>
      intro m
      unfold ksFun
      cases lastMatch old e with
      | some k => simp [ih m]
      | none => simp [ih (m + 1)]

theorem mem_ksFun (old : BSet) (d : List Endpoint) :
    ∀ m k : Nat, k ∈ ksFun old m d →
      (∃ e ∈ d, lastMatch old e = some k) ∨ m ≤ k := by
  induction d with
  | nil => intro m k h; cases h
  | cons e rest ih =>
      intro m k h
      unfold ksFun at h
      cases hm : lastMatch old e with
      | some k' =>
          rw [hm] at h
          rcases List.mem_cons.mp h with h1 | h1
          · subst h1; left; exact ⟨e, List.mem_cons_self e rest, hm⟩
          · rcases ih m k h1 with h2 | h2
            · rcases h2 with ⟨e', he', hl⟩
              left; exact ⟨e', List.mem_cons_of_mem e he', hl⟩
            · right; exact h2
      | none =>
          rw [hm] at h
          rcases List.mem_cons.mp h with h1 | h1
          · subst h1; right; exact Nat.le_refl _
          · rcases ih (m + 1) k h1 with h2 | h2
            · rcases h2 with ⟨e', he', hl⟩
              left; exact ⟨e', List.mem_cons_of_mem e he', hl⟩
            · right; exact Nat.le_trans (Nat.le_succ _) h2

theorem ksFun_nodup (old : BSet) (n : Nat)
    (hnd : (keysOf old).Nodup) (hlt : ∀ k ∈ keysOf old, k < n) :
    ∀ (d : List Endpoint) (m : Nat), n ≤ m → d.Nodup →
      (ksFun old m d).Nodup := by
  intro d
  induction d with
  | nil => intro m _ _; exact List.nodup_nil
  | cons e rest ih =>
      intro m hm hd
      rcases List.nodup_cons.mp hd with ⟨he, hrest⟩
      unfold ksFun
      cases hlm : lastMatch old e with
      | some k =>
          rw [List.nodup_cons]
          refine ⟨?_, ih m hm hrest⟩
          intro hk
          rcases mem_ksFun old rest m k hk with h1 | h1
          · rcases h1 with ⟨e', he', hl⟩
            exact he ((lastMatch_inj old e' e k hnd hl hlm) ▸ he')
          · exact absurd (Nat.lt_of_lt_of_le
              (hlt k (lastMatch_key_mem old e k hlm)) hm) (Nat.not_lt.mpr h1)
      | none =>
          rw [List.nodup_cons]
          refine ⟨?_, ih (m + 1) (Nat.le_trans hm (Nat.le_succ _)) hrest⟩
          intro hk
          rcases mem_ksFun old rest (m + 1) m hk with h1 | h1
          · rcases h1 with ⟨e', _, hl⟩
            have : m < n := Nat.lt_of_lt_of_le
              (hlt m (lastMatch_key_mem old e' m hl)) (Nat.le_refl n)
            exact absurd hm (Nat.not_le.mpr this)
          · exact absurd h1 (Nat.not_le.mpr (Nat.lt_succ_self m))

theorem keysOf_zipWith (p : Nat) (ks : List Nat) (d : List Endpoint)
    (h : ks.length = d.length) :
    keysOf (List.zipWith (mkEntry p) ks d) = ks := by
  induction ks generalizing d with
  | nil => simp [keysOf]
  | cons k ks' ih =>
      cases d with
      | nil => cases h
      | cons e rest =>
          simp only [List.zipWith_cons_cons, keysOf, List.map_cons]
          rw [show (mkEntry p k e).1 = k from rfl]
          have := ih rest (by simpa using h)
          rw [keysOf] at this
          rw [this]

theorem pairsOf_zipWith (p : Nat) (ks : List Nat) (d : List Endpoint)
    (h : ks.length = d.length) :
    (List.zipWith (mkEntry p) ks d).map (fun kb => pairB kb.2) = d := by
  induction ks generalizing d with
  | nil => cases d with
    | nil => rfl
    | cons e rest => cases h
  | cons k ks' ih =>
      cases d with
      | nil => cases h
      | cons e rest =>
          simp only [List.zipWith_cons_cons, List.map_cons]
          rw [show pairB (mkEntry p k e).2 = e from pairB_mkB e p k]
          rw [ih rest (by simpa using h)]

theorem diffLoop_shape (old : BSet) (p n : Nat)
    (hnd : (keysOf old).Nodup) (hlt : ∀ k ∈ keysOf old, k < n) :
    ∀ (d : List Endpoint) (L : BSet) (A : List Nat) (m : Nat),
      n ≤ m → d.Nodup →
      (∀ k ∈ keysOf L, k < m) →
      (∀ e ∈ d, ∀ k, lastMatch old e = some k → k ∉ keysOf L) →
      (diffLoop old p { newBackends := L, added := A, nextKey := m }
          d).newBackends
        = L ++ List.zipWith (mkEntry p) (ksFun old m d) d ∧
      (diffLoop old p { newBackends := L, added := A, nextKey := m }
          d).nextKey
        = m + countFresh old d := by
  intro d
  induction d with
  | nil =>
      intro L A m _ _ _ _
      constructor
      · rw [List.zipWith_nil_right, List.append_nil]
        rfl
      · rfl
  | cons e rest ih =>
      intro L A m hm hd hL1 hL2
      rcases List.nodup_cons.mp hd with ⟨he, hrest⟩
      cases hlm : lastMatch old e with
      | some k =>
          have hkold : k ∈ keysOf old := lastMatch_key_mem old e k hlm
          have hknotL : k ∉ keysOf L :=
            hL2 e (List.mem_cons_self e rest) k hlm
          have hobj : objMem L k = false := by
            cases hb : objMem L k with
            | false => rfl
            | true => exact absurd ((objMem_iff L k).mp hb) hknotL
          have hstep : diffStep old p
              { newBackends := L, added := A, nextKey := m } e =
              { newBackends := L ++ [(k, mkB e p k)], added := A,
                nextKey := m } := by
            unfold diffStep
            rw [hlm]
            simp [objSet_of_not_mem L k _ hobj]
          have hrec := ih (L ++ [(k, mkB e p k)]) A m hm hrest
            (by
              intro k' hk'
              rw [keysOf_append] at hk'
              rcases List.mem_append.mp hk' with h1 | h1
              · exact hL1 k' h1
              · simp only [keysOf, List.map_cons, List.map_nil,
                  List.mem_singleton] at h1
                subst h1
                exact Nat.lt_of_lt_of_le (hlt _ hkold) hm)
            (by
              intro e' he' k' hl' hk'
              rw [keysOf_append] at hk'
              rcases List.mem_append.mp hk' with h1 | h1
              · exact hL2 e' (List.mem_cons_of_mem e he') k' hl' h1
              · simp only [keysOf, List.map_cons, List.map_nil,
                  List.mem_singleton] at h1
                subst h1
                exact he ((lastMatch_inj old e' e k' hnd hl' hlm) ▸ he'))
          show (diffLoop old p (diffStep old p _ e) rest).newBackends = _ ∧
            (diffLoop old p (diffStep old p _ e) rest).nextKey = _
          rw [hstep]
          constructor
          · rw [hrec.1, ksFun_cons_some old m e rest k hlm,
              List.zipWith_cons_cons, List.append_assoc]
            rfl
          · rw [hrec.2, countFresh_cons]
            rw [hlm]
            rfl
      | none =>
          have hobj : objMem L m = false := by
            cases hb : objMem L m with
            | false => rfl
            | true =>
                exact absurd (hL1 m ((objMem_iff L m).mp hb))
                  (Nat.lt_irrefl m)
          have hstep : diffStep old p
              { newBackends := L, added := A, nextKey := m } e =
              { newBackends := L ++ [(m, mkB e p m)],
                added := A ++ [m], nextKey := m + 1 } := by
            unfold diffStep
            rw [hlm]
            simp [objSet_of_not_mem L m _ hobj]
          have hrec := ih (L ++ [(m, mkB e p m)]) (A ++ [m]) (m + 1)
            (Nat.le_trans hm (Nat.le_succ _)) hrest
            (by
              intro k' hk'
              rw [keysOf_append] at hk'
              rcases List.mem_append.mp hk' with h1 | h1
              · exact Nat.lt_trans (hL1 k' h1) (Nat.lt_succ_self m)
              · simp only [keysOf, List.map_cons, List.map_nil,
                  List.mem_singleton] at h1
                subst h1
                exact Nat.lt_succ_self _)
            (by
              intro e' he' k' hl' hk'
              rw [keysOf_append] at hk'
              rcases List.mem_append.mp hk' with h1 | h1
              · exact hL2 e' (List.mem_cons_of_mem e he') k' hl' h1
              · simp only [keysOf, List.map_cons, List.map_nil,
                  List.mem_singleton] at h1
                subst h1
                have : k' < n := hlt k' (lastMatch_key_mem old e' k' hl')
                exact absurd (Nat.lt_of_lt_of_le this hm) (Nat.lt_irrefl k'))
          show (diffLoop old p (diffStep old p _ e) rest).newBackends = _ ∧
            (diffLoop old p (diffStep old p _ e) rest).nextKey = _
          rw [hstep]
          constructor
          · rw [hrec.1, ksFun_cons_none old m e rest hlm,
              List.zipWith_cons_cons, List.append_assoc]
            rfl
          · rw [hrec.2, countFresh_cons]
            rw [hlm]
            show m + 1 + countFresh old rest = m + (countFresh old rest + 1)
            omega

theorem diffLoop_refetch (p : Nat) :
    ∀ (d : List Endpoint) (ks : List Nat) (L : BSet) (A : List Nat)
      (m : Nat) (new1 : BSet),
      new1 = L ++ List.zipWith (mkEntry p) ks d →
      ks.length = d.length →
      (keysOf new1).Nodup →
      (new1.map (fun kb => pairB kb.2)).Nodup →
      diffLoop new1 p { newBackends := L, added := A, nextKey := m } d
        = { newBackends := new1, added := A, nextKey := m } := by
  intro d
  induction d with
  | nil =>
      intro ks L A m new1 h1 _ _ _
      simp only [List.zipWith_nil_right] at h1
      rw [List.append_nil] at h1
      rw [diffLoop, h1]
  | cons e rest ih =>
      intro ks L A m new1 h1 hlen hndk hndp
      cases ks with
      | nil => cases hlen
      | cons k ks' =>
          rw [List.zipWith_cons_cons] at h1
          have hlen' : ks'.length = rest.length := by simpa using hlen
          have htail : (List.zipWith (mkEntry p) ks' rest).map
              (fun kb => pairB kb.2) = rest := pairsOf_zipWith p ks' rest hlen'
          have hENotRest : e ∉ rest := by
            have hpairs : new1.map (fun kb => pairB kb.2) =
                L.map (fun kb => pairB kb.2) ++ e ::
                  (List.zipWith (mkEntry p) ks' rest).map
                    (fun kb => pairB kb.2) := by
              rw [h1]
              simp [pairB_mkB, mkEntry]
            rw [hpairs] at hndp
            have := (List.nodup_append.mp hndp).2.1
            rw [htail] at this
            exact (List.nodup_cons.mp this).1
          have hknotL : k ∉ keysOf L := by
            have hkeys : keysOf new1 = keysOf L ++ k :: keysOf
                (List.zipWith (mkEntry p) ks' rest) := by
              rw [h1, keysOf_append]
              rfl
            rw [hkeys] at hndk
            intro hmem
            exact (List.nodup_append.mp hndk).2.2 hmem
              (List.mem_cons_self _ _)
          have hlmTail : lastMatch (List.zipWith (mkEntry p) ks' rest) e
              = none := by
            apply lastMatch_eq_none
            intro kb hkb
            cases hs : sameNA kb.2 e with
            | false => rfl
            | true =>
                exfalso
                have hp : pairB kb.2 = e := (sameNA_iff kb.2 e).mp hs
                have : pairB kb.2 ∈ (List.zipWith (mkEntry p) ks' rest).map
                    (fun x => pairB x.2) := List.mem_map.mpr ⟨kb, hkb, rfl⟩
                rw [htail, hp] at this
                exact hENotRest this
          have hlm : lastMatch new1 e = some k := by
            rw [h1, lastMatch_append]
            have hmid : lastMatch ((k, mkB e p k) ::
                List.zipWith (mkEntry p) ks' rest) e = some k := by
              rw [lastMatch_cons, hlmTail]
              show (if sameNA (mkB e p k) e then some k else none) = some k
              rw [if_pos ((sameNA_mkB e e p k).mpr rfl)]
            show (match lastMatch ((k, mkB e p k) ::
                List.zipWith (mkEntry p) ks' rest) e with
              | some k => some k | none => lastMatch L e) = some k
            rw [hmid]
          have hobj : objMem L k = false := by
            cases hb : objMem L k with
            | false => rfl
            | true => exact absurd ((objMem_iff L k).mp hb) hknotL
          have hstep : diffStep new1 p
              { newBackends := L, added := A, nextKey := m } e =
              { newBackends := L ++ [(k, mkB e p k)], added := A,
                nextKey := m } := by
            unfold diffStep
            rw [hlm]
            simp [objSet_of_not_mem L k _ hobj]
          show diffLoop new1 p (diffStep new1 p _ e) rest = _
          rw [hstep]
          apply ih ks' (L ++ [(k, mkB e p k)]) A m new1 ?_ hlen' hndk hndp
          rw [h1, List.append_assoc]
          rfl

/-! Facts about whole reconciliations, stated on diffAndEmit. -/

theorem diffAndEmit_newBackends (old : BSet) (d : List Endpoint) (p n : Nat) :
    (diffAndEmit old d p n).newBackends =
      (diffLoop old p { newBackends := [], added := [], nextKey := n }
        d).newBackends := rfl

theorem diffAndEmit_nextKey (old : BSet) (d : List Endpoint) (p n : Nat) :
    (diffAndEmit old d p n).nextKey =
      (diffLoop old p { newBackends := [], added := [], nextKey := n }
        d).nextKey := rfl

theorem diffAndEmit_removed (old : BSet) (d : List Endpoint) (p n : Nat) :
    (diffAndEmit old d p n).removed =
      (keysOf old).filter
        (fun k => !objMem (diffAndEmit old d p n).newBackends k) := rfl

theorem diffAndEmit_added (old : BSet) (d : List Endpoint) (p n : Nat) :
    (diffAndEmit old d p n).added =
      (diffLoop old p { newBackends := [], added := [], nextKey := n }
        d).added := rfl

theorem diffAndEmit_keys_nodup (old : BSet) (d : List Endpoint) (p n : Nat) :
    (keysOf (diffAndEmit old d p n).newBackends).Nodup := by
  rw [diffAndEmit_newBackends]
  exact diffLoop_keys_nodup old p d _ List.nodup_nil

theorem diffAndEmit_entry_shape (old : BSet) (d : List Endpoint) (p n : Nat) :
    ∀ kb ∈ (diffAndEmit old d p n).newBackends,
      kb.2.key = kb.1 ∧ kb.2.port = p := by
  rw [diffAndEmit_newBackends]
  exact diffLoop_entry_shape old p d _ (by intro kb h; cases h)

theorem diffAndEmit_origin (old : BSet) (d : List Endpoint) (p n : Nat) :
    ∀ kb ∈ (diffAndEmit old d p n).newBackends,
      lastMatch old (pairB kb.2) = some kb.1 ∨
        (lastMatch old (pairB kb.2) = none ∧ n ≤ kb.1) := by
  rw [diffAndEmit_newBackends]
  exact diffLoop_origin old p n d _ (Nat.le_refl n) (by intro kb h; cases h)

theorem diffAndEmit_keys_lt (old : BSet) (d : List Endpoint) (p n : Nat)
    (h : ∀ k ∈ keysOf old, k < n) :
    ∀ k ∈ keysOf (diffAndEmit old d p n).newBackends,
      k < (diffAndEmit old d p n).nextKey := by
  rw [diffAndEmit_newBackends, diffAndEmit_nextKey]
  exact diffLoop_keys_lt old p n d h _ (Nat.le_refl n) (by intro k hk; cases hk)

theorem diffAndEmit_nextKey_mono (old : BSet) (d : List Endpoint) (p n : Nat) :
    n ≤ (diffAndEmit old d p n).nextKey := by
  rw [diffAndEmit_nextKey]
  exact diffLoop_nextKey_mono old p d
    { newBackends := [], added := [], nextKey := n }

theorem diffAndEmit_added_ge (old : BSet) (d : List Endpoint) (p n j : Nat)
    (h : j ∈ (diffAndEmit old d p n).added) : n ≤ j := by
  rw [diffAndEmit_added] at h
  rcases diffLoop_added_ge old p d
      { newBackends := [], added := [], nextKey := n } j h with h1 | h1
  · cases h1
  · exact h1

/-- If an entry of a reconciliation result has a (name, address) pair that
occurs in the previous set, every such entry carries the single reused key,
so the pair occurs at most once in the new set. -/
theorem countP_le_one_of_key (l : BSet) (pred : Nat × Backend → Bool)
    (k : Nat) (hnd : (keysOf l).Nodup)
    (h : ∀ kb ∈ l, pred kb = true → kb.1 = k) :
    l.countP pred ≤ 1 := by
  induction l with
  | nil => exact Nat.zero_le 1
  | cons kb rest ih =>
      have hnd' : (keysOf rest).Nodup := by
        rw [keysOf] at hnd
        exact (List.nodup_cons.mp hnd).2
      rw [List.countP_cons]
      cases hp : pred kb with
      | false =>
          have hif : (if (false = true) then 1 else 0) = 0 := rfl
          rw [hif, Nat.add_zero]
          exact ih hnd' (fun x hx hpx => h x (List.mem_cons_of_mem kb hx) hpx)
      | true =>
          have hzero : rest.countP pred = 0 := by
            rw [List.countP_eq_zero]
            intro x hx hpx
            have hx1 : x.1 = k := h x (List.mem_cons_of_mem kb hx) hpx
            have hkb1 : kb.1 = k := h kb (List.mem_cons_self kb rest) hp
            rw [keysOf] at hnd
            apply (List.nodup_cons.mp hnd).1
            rw [hkb1, ← hx1]
            exact List.mem_map.mpr ⟨x, hx, rfl⟩
          rw [hzero]
          decide

/-! The machine-level well-formedness invariant: backend-object keys are
unique, each stored backend's key field equals its object key and its port
is the configured port, and every key is below the fresh-key supply. -/

def WF (r : Resolver) : Prop :=
  (keysOf r.backends).Nodup ∧
  (∀ kb ∈ r.backends, kb.2.key = kb.1 ∧ kb.2.port = r.port) ∧
  (∀ k ∈ keysOf r.backends, k < r.nextKey)

theorem WF_init (p : Nat) : WF (initResolver p) := by
  refine ⟨List.nodup_nil, ?_, ?_⟩
  · intro kb h
    exact absurd h (List.not_mem_nil kb)
  · intro k h
    exact absurd h (List.not_mem_nil k)

theorem applyDiff_WF (r : Resolver) (hwf : WF r) : WF (applyDiff r).1 := by
  refine ⟨?_, ?_, ?_⟩
  · exact diffAndEmit_keys_nodup r.backends r.discovered r.port r.nextKey
  · exact diffAndEmit_entry_shape r.backends r.discovered r.port r.nextKey
  · exact diffAndEmit_keys_lt r.backends r.discovered r.port r.nextKey hwf.2.2

theorem WF_of_backends_nil (r : Resolver) (h : r.backends = []) : WF r := by
  refine ⟨?_, ?_, ?_⟩
  · rw [h]; exact List.nodup_nil
  · intro kb hkb
    rw [h] at hkb
    exact absurd hkb (List.not_mem_nil kb)
  · intro k hk
    rw [h] at hk
    exact absurd hk (List.not_mem_nil k)

theorem WF_frame (r r' : Resolver) (hb : r'.backends = r.backends)
    (hp : r'.port = r.port) (hn : r.nextKey ≤ r'.nextKey) (hwf : WF r) :
    WF r' := by
  refine ⟨?_, ?_, ?_⟩
  · rw [hb]; exact hwf.1
  · intro kb hkb
    rw [hb] at hkb
    rw [hp]
    exact hwf.2.1 kb hkb
  · intro k hk
    rw [hb] at hk
    exact Nat.lt_of_lt_of_le (hwf.2.2 k hk) hn

theorem step_preserves_WF (r : Resolver) (i : Input) (r' : Resolver)
    (evs : List Ev) (hs : step r i = some (r', evs)) (hwf : WF r) : WF r' := by
  cases i with
  | start =>
      simp only [step] at hs
      cases hf : r.fsm <;> simp only [hf] at hs
      case stopped =>
          rw [Option.some.injEq, Prod.mk.injEq] at hs
          exact WF_frame r r' (by rw [← hs.1]) (by rw [← hs.1])
            (by rw [← hs.1]) hwf
      all_goals exact Option.noConfusion hs
  | stop =>
      simp only [step] at hs
      cases hf : r.fsm <;> simp only [hf] at hs
      case running =>
          rw [Option.some.injEq] at hs
          have h1 : r' = (stopSeq r).1 := (congrArg Prod.fst hs).symm
          apply WF_of_backends_nil
          rw [h1]
          rfl
      case failed =>
          rw [Option.some.injEq] at hs
          have h1 : r' = (stopSeq r).1 := (congrArg Prod.fst hs).symm
          apply WF_of_backends_nil
          rw [h1]
          rfl
      all_goals exact Option.noConfusion hs
  | tick =>
      simp only [step] at hs
      cases hf : r.fsm <;> simp only [hf] at hs
      case running =>
          cases hlp : r.lastPoll <;> rw [hlp] at hs <;>
            simp only [if_true, if_false, Bool.false_eq_true,
              Option.some.injEq, Prod.mk.injEq] at hs <;>
            exact WF_frame r r' (by rw [← hs.1]) (by rw [← hs.1])
              (by rw [← hs.1]) hwf
      case failed =>
          cases hlp : r.lastPoll <;> rw [hlp] at hs <;>
            simp only [if_true, if_false, Bool.false_eq_true,
              Option.some.injEq, Prod.mk.injEq] at hs <;>
            exact WF_frame r r' (by rw [← hs.1]) (by rw [← hs.1])
              (by rw [← hs.1]) hwf
      all_goals exact Option.noConfusion hs
  | fetchDone res =>
      simp only [step] at hs
      cases hin : r.inFlight with
      | none =>
          rw [hin] at hs
          exact Option.noConfusion hs
      | some o =>
          rw [hin] at hs
          cases o with
          | fromStarting =>
              cases hf : r.fsm <;> simp only [hf] at hs
              case starting =>
                  cases res with
                  | error e =>
                      simp only [Option.some.injEq, Prod.mk.injEq] at hs
                      exact WF_frame r r' (by rw [← hs.1]) (by rw [← hs.1])
                        (by rw [← hs.1]) hwf
                  | ok eps =>
                      simp only [Option.some.injEq] at hs
                      have h1 : r' = (enterRunning { r with discovered := eps, inFlight := none }).1 :=
                        (congrArg Prod.fst hs).symm
                      rw [h1]
                      exact applyDiff_WF _ hwf
              all_goals exact Option.noConfusion hs
          | fromRunning =>
              cases res with
              | error e =>
                  simp only [Option.some.injEq, Prod.mk.injEq] at hs
                  exact WF_frame r r' (by rw [← hs.1]) (by rw [← hs.1])
                    (by rw [← hs.1]) hwf
              | ok eps =>
                  simp only [Option.some.injEq] at hs
                  have h1 : r' = (applyDiff { r with lastPoll := false, inFlight := none, discovered := eps }).1 :=
                    (congrArg Prod.fst hs).symm
                  rw [h1]
                  exact applyDiff_WF _ hwf
          | fromFailed =>
              cases res with
              | error e =>
                  simp only [Option.some.injEq, Prod.mk.injEq] at hs
                  exact WF_frame r r' (by rw [← hs.1]) (by rw [← hs.1])
                    (by rw [← hs.1]) hwf
              | ok eps =>
                  cases hf : r.fsm <;> simp only [hf] at hs
                  case failed =>
                      simp only [Option.some.injEq] at hs
                      have h1 : r' = (enterRunning { r with lastPoll := false, inFlight := none, discovered := eps }).1 :=
                        (congrArg Prod.fst hs).symm
                      rw [h1]
                      exact applyDiff_WF _ hwf
                  all_goals exact Option.noConfusion hs

/-! Iterated poll cycles, for the key-freshness property. -/

/-- A sequence of successful poll cycles: each one reconciles the current
backend object against the cycle's discovery result, as the running state
does on every successful fetch. -/
def pollCycles (S : BSet) (p n : Nat) : List (List Endpoint) → BSet × Nat
  | [] => (S, n)
  | d :: ds =>
      pollCycles (diffAndEmit S d p n).newBackends p
        (diffAndEmit S d p n).nextKey ds

theorem pollCycles_keys_lt (p : Nat) :
    ∀ (ds : List (List Endpoint)) (S : BSet) (n : Nat),
      (∀ k ∈ keysOf S, k < n) →
      (∀ k ∈ keysOf (pollCycles S p n ds).1, k < (pollCycles S p n ds).2) ∧
        n ≤ (pollCycles S p n ds).2 := by
  intro ds
  induction ds with
  | nil => intro S n h; exact ⟨h, Nat.le_refl n⟩
  | cons d ds ih =>
      intro S n h
      have hrec := ih (diffAndEmit S d p n).newBackends
        (diffAndEmit S d p n).nextKey
        (diffAndEmit_keys_lt S d p n h)
      exact ⟨hrec.1,
        Nat.le_trans (diffAndEmit_nextKey_mono S d p n) hrec.2⟩

/-! Event-order auxiliaries. -/

/-- Discriminator between the two event kinds. -/
def isAdded : Ev → Bool
  | Ev.added _ _ => true
  | Ev.removed _ => false

theorem added_seg_aux (l2 : List Ev) (h2 : ∀ x ∈ l2, isAdded x = false) :
    ∀ l1 : List Ev, (∀ x ∈ l1, isAdded x = true) →
      ∀ (i : Nat) (hi : i < (l1 ++ l2).length),
        isAdded ((l1 ++ l2).get ⟨i, hi⟩) = true → i < l1.length := by
  intro l1
  induction l1 with
  | nil =>
      intro _ i hi ha
      exfalso
      have hmem : l2.get ⟨i, hi⟩ ∈ l2 := List.get_mem l2 i hi
      rw [show (([] : List Ev) ++ l2).get ⟨i, hi⟩ = l2.get ⟨i, hi⟩ from rfl]
        at ha
      rw [h2 _ hmem] at ha
      cases ha
  | cons x xs ih =>
      intro h1 i hi ha
      cases i with
      | zero => exact Nat.succ_pos _
      | succ i' =>
          have hi' : i' < (xs ++ l2).length := Nat.lt_of_succ_lt_succ hi
          rw [show ((x :: xs) ++ l2).get ⟨i' + 1, hi⟩ =
            (xs ++ l2).get ⟨i', hi'⟩ from rfl] at ha
          exact Nat.succ_lt_succ
            (ih (fun y hy => h1 y (List.mem_cons_of_mem x hy)) i' hi' ha)

theorem removed_seg_aux (l2 : List Ev) (l1 : List Ev)
    (h1 : ∀ x ∈ l1, isAdded x = true) (j : Nat)
    (hj : j < (l1 ++ l2).length)
    (hr : isAdded ((l1 ++ l2).get ⟨j, hj⟩) = false) : l1.length ≤ j := by
  by_contra hc
  rw [Nat.not_le] at hc
  rw [List.get_append j hc] at hr
  have hmem : l1.get ⟨j, hc⟩ ∈ l1 := List.get_mem l1 j hc
  rw [h1 _ hmem] at hr
  cases hr

/-! Concrete states used by the claim witnesses.  `runningSample` is the
configuration reached from a fresh resolver by start() followed by a
successful first fetch of one endpoint; `runningPolling` is the same after
one timer tick has issued a poll that is still outstanding. -/

def ep1 : Endpoint := { name := "db1", address := "10.0.0.1" }

def be1 : Backend :=
  { name := "db1", address := "10.0.0.1", port := 5432, key := 0 }

def runningSample : Resolver :=
  { fsm := FsmState.running
    backends := [(0, be1)]
    discovered := [ep1]
    lastPoll := false
    inFlight := none
    lastError := none
    nextKey := 1
    port := 5432
    lastBackends := []
    lastAdded := [0]
    lastRemoved := [] }

def runningPolling : Resolver :=
  { runningSample with lastPoll := true, inFlight := some Origin.fromRunning }

/-- C1: stop() while a running-state fetch is in flight.  The claim says
the stale fetch's result is discarded, no reconciliation runs, no events
are emitted, and the Backend Set stays empty once stopped.  The code's
fetch callback (resolver.js lines 198-207) makes no stop-state check, so
after start, a successful empty first fetch, one tick that issues a poll,
and stop(), the late completion of that poll still stores the discovered
list, runs diffAndEmit, emits an added event, and repopulates
vmr_backends while the machine is stopped. -/
theorem c1_stale_fetch_applied_after_stop :
    (run (initResolver 5432)
        [Input.start, Input.fetchDone (Except.ok []), Input.tick, Input.stop,
         Input.fetchDone (Except.ok [ep1])]).map
      (fun x => (x.1.fsm, list x.1, x.2)) =
    some (FsmState.stopped, [(0, be1)], [Ev.added 0 (some be1)]) := by
  decide

/-- C2: count() is claimed to return the number of keys of the Backend
Set.  The code returns `this.vmr_backends.length` (resolver.js line 276)
on a plain object, which is undefined: in the state reached by start()
plus one successful fetch, the Backend Set has one key yet count()
evaluates to undefined (none). -/
theorem c2_count_undefined_not_size :
    (run (initResolver 5432)
        [Input.start, Input.fetchDone (Except.ok [ep1])]).map
      (fun x => ((keysOf (list x.1)).length, count x.1)) =
    some (1, none) := by
  decide

/-- C3: lastError()/getLastError() is claimed to return the most recent
fetch error.  No statement of resolver.js ever assigns `vmr_last_error`,
so after a failed first fetch (resolver reaches failed) and likewise
after a failed poll in the running state, getLastError() still returns
undefined (none) instead of the error. -/
theorem c3_lastError_never_assigned :
    (run (initResolver 80) [Input.start, Input.fetchDone (Except.error 7)]).map
        (fun x => (x.1.fsm, getLastError x.1)) =
      some (FsmState.failed, none) ∧
    (run (initResolver 80)
        [Input.start, Input.fetchDone (Except.ok []), Input.tick,
         Input.fetchDone (Except.error 9)]).map
        (fun x => (x.1.fsm, getLastError x.1)) =
      some (FsmState.running, none) := by
  constructor
  · decide
  · decide

/-- C4 counterexample: the claim says a discovery result carrying the same
(name, address) pair twice produces only one key.  Starting from an empty
Backend Set, diffAndEmit on [ep1, ep1] searches only the OLD set for a
match, finds none for either occurrence, and mints two distinct keys, so
the new set holds the same pair under keys 0 and 1. -/
theorem c4_duplicate_new_pair_gets_two_keys :
    (diffAndEmit [] [ep1, ep1] 5432 0).added = [0, 1] ∧
    objGet (diffAndEmit [] [ep1, ep1] 5432 0).newBackends 0 =
      some { name := "db1", address := "10.0.0.1", port := 5432, key := 0 } ∧
    objGet (diffAndEmit [] [ep1, ep1] 5432 0).newBackends 1 =
      some { name := "db1", address := "10.0.0.1", port := 5432, key := 1 } := by
  decide

/-- C4 (amended): in every Backend Set produced by diffAndEmit the keys
are unique, and a (name, address) pair that is present in the previous
set appears at most once in the new set (all its discovered occurrences
collapse onto the single reused key).  Only a pair absent from the
previous set can appear under more than one key, one fresh key per
duplicate occurrence, as the counterexample shows. -/
theorem c4_amended_keys_unique_and_known_pair_once (old : BSet)
    (d : List Endpoint) (p n : Nat) :
    (keysOf (diffAndEmit old d p n).newBackends).Nodup ∧
    ∀ (q : Endpoint) (k : Nat), lastMatch old q = some k →
      (diffAndEmit old d p n).newBackends.countP
        (fun kb => sameNA kb.2 q) ≤ 1 := by
  refine ⟨diffAndEmit_keys_nodup old d p n, ?_⟩
  intro q k hq
  apply countP_le_one_of_key _ _ k (diffAndEmit_keys_nodup old d p n)
  intro kb hkb hpred
  have hp : pairB kb.2 = q := (sameNA_iff kb.2 q).mp hpred
  rcases diffAndEmit_origin old d p n kb hkb with h1 | ⟨h1a, h1b⟩
  · rw [hp, hq] at h1
    exact ((Option.some.injEq k kb.1).mp h1).symm
  · rw [hp, hq] at h1a
    exact Option.noConfusion h1a

/-- Witness for the amended C4: with the pair already stored under key 0,
reconciling a discovery that reports it twice leaves it at most once. -/
theorem c4_amended_witness :
    (keysOf (diffAndEmit [(0, be1)] [ep1, ep1] 5432 1).newBackends).Nodup ∧
    (diffAndEmit [(0, be1)] [ep1, ep1] 5432 1).newBackends.countP
      (fun kb => sameNA kb.2 ep1) ≤ 1 :=
  ⟨(c4_amended_keys_unique_and_known_pair_once [(0, be1)] [ep1, ep1] 5432 1).1,
    (c4_amended_keys_unique_and_known_pair_once [(0, be1)] [ep1, ep1] 5432 1).2
      ep1 0 (by decide)⟩

/-- C5 counterexample: the claim says reconciling the same discovery list
twice always yields zero added and zero removed events the second time.
With the duplicated list [ep1, ep1] from an empty set, the first run
stores the pair under keys 0 and 1; on the second run both occurrences
match key 1 (the last match wins), so key 0 is dropped and the second run
emits a removed event: removed = [0], not []. -/
theorem c5_duplicate_pair_second_run_emits_removed :
    (diffAndEmit (diffAndEmit [] [ep1, ep1] 5432 0).newBackends [ep1, ep1]
        5432 (diffAndEmit [] [ep1, ep1] 5432 0).nextKey).removed = [0] ∧
    (diffAndEmit (diffAndEmit [] [ep1, ep1] 5432 0).newBackends [ep1, ep1]
        5432 (diffAndEmit [] [ep1, ep1] 5432 0).nextKey).added = [] := by
  decide

/-- C5 (amended): for a well-formed previous Backend Set (unique keys all
below the fresh-key supply) and a discovery list with pairwise-distinct
(name, address) pairs, running diffAndEmit twice in a row yields zero
added and zero removed events on the second run and leaves the Backend
Set exactly as after the first run. -/
theorem c5_amended_idempotent_on_distinct_pairs (old : BSet)
    (d : List Endpoint) (p n : Nat)
    (h1 : (keysOf old).Nodup) (h2 : ∀ k ∈ keysOf old, k < n)
    (h3 : d.Nodup) :
    (diffAndEmit (diffAndEmit old d p n).newBackends d p
        (diffAndEmit old d p n).nextKey).added = [] ∧
    (diffAndEmit (diffAndEmit old d p n).newBackends d p
        (diffAndEmit old d p n).nextKey).removed = [] ∧
    (diffAndEmit (diffAndEmit old d p n).newBackends d p
        (diffAndEmit old d p n).nextKey).newBackends =
      (diffAndEmit old d p n).newBackends := by
  have hshape := diffLoop_shape old p n h1 h2 d [] [] n (Nat.le_refl n) h3
    (by intro k hk; exact absurd hk (List.not_mem_nil k))
    (by intro e _ k _ hk; exact absurd hk (List.not_mem_nil k))
  have hn1 : (diffAndEmit old d p n).newBackends =
      List.zipWith (mkEntry p) (ksFun old n d) d := by
    rw [diffAndEmit_newBackends, hshape.1]
    rfl
  have hlen : (ksFun old n d).length = d.length := ksFun_length old d n
  have hndk : (keysOf (diffAndEmit old d p n).newBackends).Nodup :=
    diffAndEmit_keys_nodup old d p n
  have hndp : ((diffAndEmit old d p n).newBackends.map
      (fun kb => pairB kb.2)).Nodup := by
    rw [hn1, pairsOf_zipWith p _ d hlen]
    exact h3
  have hfetch := diffLoop_refetch p d (ksFun old n d) [] []
    (diffAndEmit old d p n).nextKey (diffAndEmit old d p n).newBackends
    (by rw [hn1]; rfl) hlen hndk hndp
  refine ⟨?_, ?_, ?_⟩
  · rw [diffAndEmit_added, hfetch]
  · rw [diffAndEmit_removed, List.filter_eq_nil_iff]
    intro a ha
    show ¬((!objMem (diffAndEmit (diffAndEmit old d p n).newBackends d p
      (diffAndEmit old d p n).nextKey).newBackends a) = true)
    rw [diffAndEmit_newBackends, hfetch]
    show ¬((!objMem (diffAndEmit old d p n).newBackends a) = true)
    rw [(objMem_iff _ a).mpr ha]
    decide
  · rw [diffAndEmit_newBackends, hfetch]

/-- Witness for the amended C5 on a one-endpoint discovery from an empty
set: the second reconciliation changes nothing and emits nothing. -/
theorem c5_amended_witness :
    (diffAndEmit (diffAndEmit [] [ep1] 80 0).newBackends [ep1] 80
        (diffAndEmit [] [ep1] 80 0).nextKey).added = [] ∧
    (diffAndEmit (diffAndEmit [] [ep1] 80 0).newBackends [ep1] 80
        (diffAndEmit [] [ep1] 80 0).nextKey).removed = [] ∧
    (diffAndEmit (diffAndEmit [] [ep1] 80 0).newBackends [ep1] 80
        (diffAndEmit [] [ep1] 80 0).nextKey).newBackends =
      (diffAndEmit [] [ep1] 80 0).newBackends :=
  c5_amended_idempotent_on_distinct_pairs [] [ep1] 80 0 (by decide)
    (by decide) (by decide)

/-- C6: keys are never reused within one resolver instance.  If key k is
stored in a well-formed Backend Set, then after any sequence of
successful poll cycles, a (name, address) pair that is no longer matched
by the current set (it was removed) and is rediscovered in the next cycle
is stored under a key different from k: every key the current set no
longer matches can only be replaced by a fresh key at or above the
monotone fresh-key supply, which k is strictly below. -/
theorem c6_keys_never_reused (S : BSet) (p n : Nat)
    (ds : List (List Endpoint)) (d : List Endpoint) (q : Endpoint)
    (k : Nat) (b : Backend) (k' : Nat) (b' : Backend)
    (hwf : ∀ x ∈ keysOf S, x < n)
    (hmem : (k, b) ∈ S) (hpair : pairB b = q)
    (hgone : lastMatch (pollCycles S p n ds).1 q = none)
    (hre : (k', b') ∈ (diffAndEmit (pollCycles S p n ds).1 d p
        (pollCycles S p n ds).2).newBackends)
    (hq : pairB b' = q) :
    k' ≠ k := by
  have hk : k ∈ keysOf S := List.mem_map.mpr ⟨(k, b), hmem, rfl⟩
  have hkn : k < n := hwf k hk
  have hchain := (pollCycles_keys_lt p ds S n hwf).2
  rcases diffAndEmit_origin (pollCycles S p n ds).1 d p
      (pollCycles S p n ds).2 (k', b') hre with h1 | ⟨h1a, h1b⟩
  · have h1' : lastMatch (pollCycles S p n ds).1 q = some k' := by
      rw [← hq]
      exact h1
    rw [hgone] at h1'
    exact Option.noConfusion h1'
  · have h2 : n ≤ k' := Nat.le_trans hchain h1b
    omega

/-- Witness for C6: key 0 held ep1; one poll cycle with an empty discovery
removes it; rediscovering ep1 the cycle after assigns key 1, not 0. -/
theorem c6_keys_never_reused_witness : (1 : Nat) ≠ 0 :=
  c6_keys_never_reused [(0, be1)] 5432 1 [[]] [ep1] ep1 0 be1 1
    (mkB ep1 5432 1) (by decide) (by decide) (by decide) (by decide)
    (by decide) (by decide)

/-- C7: stopping from the running state emits exactly one removed event
per key of the Backend Set, in key order, and nothing else; the machine
reaches stopped with an empty Backend Set, so list() returns an empty
object afterwards. -/
theorem c7_stop_from_running_drains (r : Resolver)
    (h : r.fsm = FsmState.running) (hwf : WF r) :
    ∃ r' : Resolver, step r Input.stop =
        some (r', (keysOf r.backends).map Ev.removed) ∧
      r'.fsm = FsmState.stopped ∧ r'.backends = [] ∧ list r' = [] := by
  refine ⟨(stopSeq r).1, ?_, rfl, rfl, rfl⟩
  simp only [step, h]
  rw [Option.some.injEq]
  have hevs : (stopSeq r).2 = (keysOf r.backends).map Ev.removed := by
    show r.backends.map (fun kb => Ev.removed kb.2.key) =
      (r.backends.map Prod.fst).map Ev.removed
    rw [List.map_map]
    apply List.map_congr_left
    intro kb hkb
    show Ev.removed kb.2.key = Ev.removed kb.1
    rw [(hwf.2.1 kb hkb).1]
  calc stopSeq r = ((stopSeq r).1, (stopSeq r).2) := rfl
    _ = ((stopSeq r).1, (keysOf r.backends).map Ev.removed) := by rw [hevs]

/-- Witness for C7 at the concrete running state with one advertised
backend reached by start() and a successful first fetch. -/
theorem c7_stop_from_running_drains_witness :
    ∃ r' : Resolver, step runningSample Input.stop =
        some (r', (keysOf runningSample.backends).map Ev.removed) ∧
      r'.fsm = FsmState.stopped ∧ r'.backends = [] ∧ list r' = [] :=
  c7_stop_from_running_drains runningSample rfl
    (by unfold WF; decide)

/-- C8: a failed poll in the running state leaves the advertised Backend
Set untouched, emits no events, and causes no lifecycle transition: the
callback only clears the in-flight guard and logs (resolver.js lines
198-204). -/
theorem c8_running_poll_failure_frame (r : Resolver) (e : Nat)
    (h1 : r.fsm = FsmState.running)
    (h2 : r.inFlight = some Origin.fromRunning) :
    ∃ r' : Resolver, step r (Input.fetchDone (Except.error e)) =
        some (r', []) ∧
      r'.backends = r.backends ∧ list r' = list r ∧
      r'.fsm = FsmState.running := by
  refine ⟨{ r with lastPoll := false, inFlight := none }, ?_, rfl, rfl, ?_⟩
  · simp only [step, h2]
  · show r.fsm = FsmState.running
    exact h1

/-- Witness for C8 at the concrete running state with a poll outstanding:
the failing completion changes neither the set nor the state. -/
theorem c8_running_poll_failure_frame_witness :
    ∃ r' : Resolver, step runningPolling (Input.fetchDone (Except.error 7)) =
        some (r', []) ∧
      r'.backends = runningPolling.backends ∧
      list r' = list runningPolling ∧
      r'.fsm = FsmState.running :=
  c8_running_poll_failure_frame runningPolling 7 rfl rfl

/-- C9: within one reconciliation's event emission, every added event
comes before every removed event: an event at index i that is an added
event and one at index j that is a removed event satisfy i < j. -/
theorem c9_added_events_precede_removed (old : BSet) (d : List Endpoint)
    (p n i j : Nat)
    (hi : i < (diffEvents (diffAndEmit old d p n)).length)
    (hj : j < (diffEvents (diffAndEmit old d p n)).length)
    (ha : isAdded ((diffEvents (diffAndEmit old d p n)).get ⟨i, hi⟩) = true)
    (hr : isAdded ((diffEvents (diffAndEmit old d p n)).get ⟨j, hj⟩) = false) :
    i < j := by
  have e1 : ∀ x ∈ (diffAndEmit old d p n).added.map
      (fun k => Ev.added k (objGet (diffAndEmit old d p n).newBackends k)),
      isAdded x = true := by
    intro x hx
    rcases List.mem_map.mp hx with ⟨k, _, hk⟩
    rw [← hk]
    rfl
  have e2 : ∀ x ∈ (diffAndEmit old d p n).removed.map Ev.removed,
      isAdded x = false := by
    intro x hx
    rcases List.mem_map.mp hx with ⟨k, _, hk⟩
    rw [← hk]
    rfl
  have hlt := added_seg_aux _ e2 _ e1 i hi ha
  have hge := removed_seg_aux _ _ e1 j hj hr
  exact Nat.lt_of_lt_of_le hlt hge

/-- Witness for C9 on a reconciliation that both adds and removes: the
added event sits at index 0, the removed event at index 1, and 0 < 1. -/
theorem c9_added_events_precede_removed_witness : (0 : Nat) < 1 :=
  c9_added_events_precede_removed
    [(0, mkB { name := "x", address := "y" } 5432 0)]
    [{ name := "a", address := "b" }] 5432 1 0 1
    (by decide) (by decide) (by decide) (by decide)

/-- C10: a timer tick that fires while the previous poll is still
outstanding (vmr_lastPoll set) is a no-op in both the running and the
failed state: the resolver configuration is exactly unchanged (so no
second fetch is issued and nothing is queued) and no events are
emitted. -/
theorem c10_tick_skipped_while_fetch_outstanding (r : Resolver)
    (h1 : r.fsm = FsmState.running ∨ r.fsm = FsmState.failed)
    (h2 : r.lastPoll = true) :
    step r Input.tick = some (r, []) := by
  rcases h1 with h | h <;> simp only [step, h, h2] <;> rw [if_pos trivial]

/-- Witness for C10 at the concrete running state with a poll
outstanding: the tick leaves the configuration untouched. -/
theorem c10_tick_skipped_while_fetch_outstanding_witness :
    step runningPolling Input.tick = some (runningPolling, []) :=
  c10_tick_skipped_while_fetch_outstanding runningPolling (Or.inl rfl) rfl

end VmapiResolver
